import Mathlib

/-!
Verification of the relation reification / significance-filtering / inversion
core of `src/pipeline/covid.py`.

The embedding below translates the Python source into Lean:
Python dicts (which preserve insertion order) become association lists,
`dict.setdefault(...).extend(...)` becomes an in-place update function that
appends a fresh key at the end, `sorted` (a stable sort) becomes
`List.insertionSort` (also stable), and the fallible record access in
`HarvardResults.collect_relations` becomes an `Except`-valued function.
-/

set_option maxHeartbeats 1000000

namespace Covid

/-- A resolved evidence item: the `(pmid, sha, text)` triple appended by
`HarvardResults.collect_relations`; `reify_relations` repackages it as the
dict `{'pmid': ..., 'sha': ..., 'text': ...}`, which is the identity in this
model.  `pmid` and `text` come from `e.get(...)` and may be `None`. -/
structure Evidence where
  pmid : Option String
  sha : String
  text : Option String
deriving DecidableEq, Repr

/-- A raw evidence entry of an input record: `e.get('pmid')` and
`e.get('text')`, each possibly absent. -/
structure RawEvidence where
  pmid : Option String
  text : Option String
deriving DecidableEq, Repr

/-- A raw extraction record.  `rtype` models `result['type']` (`none` when the
key is missing, which raises KeyError in the source), `subj`/`obj` model
`result['subj']['name']` / `result['obj']['name']` (`none` when any level is
missing; that KeyError is caught), and `evidence` models `result['evidence']`
(`none` when missing, which raises KeyError in the source). -/
structure RawRecord where
  rtype : Option String
  subj : Option String
  obj : Option String
  evidence : Option (List RawEvidence)
deriving DecidableEq, Repr

/-- A collected relation: the four-tuple
`(reltype, sub, obj, evidence)` built by `collect_relations`. -/
structure Rel where
  rtype : String
  subj : String
  obj : String
  evidence : List Evidence
deriving DecidableEq, Repr

/-- subject name → evidence list (innermost dict of the reified index). -/
abbrev SubjMap := List (String × List Evidence)

/-- reified key → subject map (second level of the reified index). -/
abbrev KeyMap := List (String × SubjMap)

/-- relation type → key map (the whole reified index). -/
abbrev ReifIndex := List (String × KeyMap)

/-- The value stored per surviving reified key by `filter_relobjs`:
`{'size': ..., 'data': {...}}`. -/
structure FEntry where
  size : Nat
  data : SubjMap
deriving DecidableEq, Repr

/-- relation type → reified key → filtered entry. -/
abbrev FiltIndex := List (String × List (String × FEntry))

/-- filename → list of (reified key, subject) pairs. -/
abbrev InvIndex := List (String × List (String × String))

/-- The `RELTYPES` table: type name → (action, role). -/
def RELTYPES : List (String × String × String) :=
  [("Activation", "activates", "activator"),
   ("Inhibition", "inhibits", "inhibitor"),
   ("IncreaseAmount", "increases", "increaser"),
   ("DecreaseAmount", "decreases", "decreaser")]

/-- `translate_reltype_into_role`: `RELTYPES.get(reltype, (None, None))[1]`. -/
def translate_reltype_into_role (t : String) : Option String :=
  (RELTYPES.lookup t).map Prod.snd

/-- The `target_relations` tuple of `collect_relations`. -/
def target_relations : List String :=
  ["Activation", "Inhibition", "IncreaseAmount", "DecreaseAmount"]

/-- One evidence entry of a record, resolved: `sha = metadata.get_sha(pmid)`;
the entry is kept only when the sha is not `None` (a missing `pmid` can never
resolve, since `None` is not a key of `pmid2sha`). -/
def resolveEvidence (get_sha : String → Option String) (e : RawEvidence) :
    Option Evidence :=
  match e.pmid with
  | none => none
  | some p =>
    match get_sha p with
    | none => none
    | some sha => some ⟨some p, sha, e.text⟩

/-- The body of the `for result in self.results[:n]` loop of
`collect_relations`, for one record.  `Except.error` models an uncaught
KeyError (`result['type']` or `result['evidence']` missing); `Except.ok none`
models `continue` (unrecognized type, missing subject/object name, or no
resolvable evidence). -/
def processRecord (m : String → Option String) (r : RawRecord) :
    Except String (Option Rel) :=
  match r.rtype with
  | none => Except.error "KeyError: type"
  | some t =>
    if t ∈ target_relations then
      match r.subj, r.obj with
      | some s, some o =>
        match r.evidence with
        | none => Except.error "KeyError: evidence"
        | some es =>
          let ev := es.filterMap (resolveEvidence m)
          if ev.isEmpty then Except.ok none else Except.ok (some ⟨t, s, o, ev⟩)
      | _, _ => Except.ok none
    else Except.ok none

/-- The record loop of `collect_relations`, in input order. -/
def collectGo (m : String → Option String) :
    List RawRecord → Except String (List Rel)
  | [] => Except.ok []
  | r :: rs =>
    match processRecord m r with
    | Except.error e => Except.error e
    | Except.ok o =>
      match collectGo m rs with
      | Except.error e => Except.error e
      | Except.ok rest =>
        Except.ok (match o with | some rel => rel :: rest | none => rest)

/-- The default of the `n=100000` parameter of
`HarvardResults.collect_relations`. -/
def collect_default_n : Nat := 100000

/-- `HarvardResults.collect_relations(metadata, n)`: only the records
`self.results[:n]` are examined. -/
def collect_relations (m : String → Option String) (records : List RawRecord)
    (n : Nat) : Except String (List Rel) :=
  collectGo m (records.take n)

/-- The `"%s-%s" % (rel[2], role)` format: Python renders `None` as the string
`"None"`; unreachable for collected relations, whose type is always one of the
four `RELTYPES`. -/
def roleStr (t : String) : String :=
  match translate_reltype_into_role t with
  | some r => r
  | none => "None"

/-- `d.setdefault(s, []).extend(ds)` on an insertion-ordered dict: update the
entry in place when present, otherwise append a fresh entry at the end. -/
def updSubj : SubjMap → String → List Evidence → SubjMap
  | [], s, ds => [(s, ds)]
  | (k, v) :: rest, s, ds =>
    if k = s then (k, v ++ ds) :: rest else (k, v) :: updSubj rest s ds

/-- `rels[t].setdefault(key, {})` followed by
`rels[t][key].setdefault(s, []).extend(ds)`. -/
def updKey : KeyMap → String → String → List Evidence → KeyMap
  | [], key, s, ds => [(key, updSubj [] s ds)]
  | (k, sm) :: rest, key, s, ds =>
    if k = key then (k, updSubj sm s ds) :: rest else (k, sm) :: updKey rest key s ds

/-- `rels = { reltype: {} for reltype in RELTYPES }`. -/
def emptyReified : ReifIndex := RELTYPES.map (fun p => (p.1, []))

/-- One iteration of the `for rel in relations` loop of `reify_relations`.
`rels[rel[0]]` always exists for collected relations (their type is one of the
four `RELTYPES`); on an absent type the update is a no-op (unreachable from
`collect_relations`, a KeyError in the source). -/
def reifyStep (ri : ReifIndex) (rel : Rel) : ReifIndex :=
  let key := rel.obj ++ "-" ++ roleStr rel.rtype
  ri.map (fun p =>
    if p.1 = rel.rtype then (p.1, updKey p.2 key rel.subj rel.evidence) else p)

/-- `reify_relations`. -/
def reify_relations (rels : List Rel) : ReifIndex :=
  rels.foldl reifyStep emptyReified

/-- `size_of(subj_sentences)`: sum of the evidence-list lengths over the
values of a subject map. -/
def size_of (subj_sentences : List (List Evidence)) : Nat :=
  (subj_sentences.map List.length).sum

/-- Python's `reltype.endswith('Amount')`, as a suffix test on the character
list of the string. -/
def str_endswith (s suffix : String) : Bool :=
  suffix.data.isSuffixOf s.data

/-- `is_big(subj_sentences, reltype)`. -/
def is_big (subj_sentences : List (List Evidence)) (reltype : String) : Bool :=
  let minimum_size := if str_endswith reltype "Amount" then 25 else 100
  decide (minimum_size ≤ size_of subj_sentences)

/-- Lexicographic comparison of character lists, the order Python uses to
compare strings (by code point). -/
def charsLe : List Char → List Char → Bool
  | [], _ => true
  | _ :: _, [] => false
  | c :: cs, d :: ds => if c < d then true else if d < c then false else charsLe cs ds

/-- Python string `<=`. -/
def strle (a b : String) : Bool :=
  charsLe a.data b.data

theorem charsLe_total : ∀ a b : List Char, charsLe a b = true ∨ charsLe b a = true
  | [], _ => Or.inl rfl
  | _ :: _, [] => Or.inr rfl
  | c :: cs, d :: ds => by
    by_cases hcd : c < d
    · left; simp [charsLe, hcd]
    · by_cases hdc : d < c
      · right; simp [charsLe, hdc]
      · have hce : c = d := le_antisymm (not_lt.mp hdc) (not_lt.mp hcd)
        subst hce
        rcases charsLe_total cs ds with h | h
        · left; simp [charsLe, h]
        · right; simp [charsLe, h]

theorem charsLe_trans : ∀ a b c : List Char,
    charsLe a b = true → charsLe b c = true → charsLe a c = true
  | [], _, _, _, _ => rfl
  | _ :: _, [], _, hab, _ => by simp [charsLe] at hab
  | _ :: _, _ :: _, [], _, hbc => by simp [charsLe] at hbc
  | a :: as, b :: bs, c :: cs, hab, hbc => by
    by_cases h1 : a < b
    · by_cases h2 : b < c
      · simp [charsLe, h1.trans h2]
      · by_cases h3 : c < b
        · simp [charsLe, h2, h3] at hbc
        · have : b = c := le_antisymm (not_lt.mp h3) (not_lt.mp h2)
          subst this
          simp [charsLe, h1]
    · by_cases h1' : b < a
      · simp [charsLe, h1, h1'] at hab
      · have : a = b := le_antisymm (not_lt.mp h1') (not_lt.mp h1)
        subst this
        simp only [charsLe, if_neg (lt_irrefl a)] at hab
        by_cases h2 : a < c
        · simp [charsLe, h2]
        · by_cases h3 : c < a
          · simp [charsLe, h2, h3] at hbc
          · have : a = c := le_antisymm (not_lt.mp h3) (not_lt.mp h2)
            subst this
            simp only [charsLe, if_neg (lt_irrefl a)] at hbc ⊢
            exact charsLe_trans as bs cs hab hbc

theorem charsLe_antisymm : ∀ a b : List Char,
    charsLe a b = true → charsLe b a = true → a = b
  | [], [], _, _ => rfl
  | [], _ :: _, _, hba => by simp [charsLe] at hba
  | _ :: _, [], hab, _ => by simp [charsLe] at hab
  | a :: as, b :: bs, hab, hba => by
    by_cases h1 : a < b
    · simp [charsLe, h1, lt_asymm h1] at hba
    · by_cases h2 : b < a
      · simp [charsLe, h1, h2] at hab
      · have : a = b := le_antisymm (not_lt.mp h2) (not_lt.mp h1)
        subst this
        simp only [charsLe, if_neg (lt_irrefl a)] at hab hba
        rw [charsLe_antisymm as bs hab hba]

theorem strle_total (a b : String) : strle a b = true ∨ strle b a = true :=
  charsLe_total a.data b.data

theorem strle_trans {a b c : String} (h1 : strle a b = true)
    (h2 : strle b c = true) : strle a c = true :=
  charsLe_trans a.data b.data c.data h1 h2

theorem strle_antisymm {a b : String} (h1 : strle a b = true)
    (h2 : strle b a = true) : a = b := by
  cases a; cases b
  exact congrArg String.mk (charsLe_antisymm _ _ h1 h2)

/-- The comparison realized by Python's `sorted` on the triples
`(len(v), k, v)`: tuples compare lexicographically and distinct dict keys `k`
ensure the third component is never consulted, so the order depends only on
`(len(v), k)`. -/
def tripleLE (a b : Nat × String × List Evidence) : Prop :=
  a.1 < b.1 ∨ (a.1 = b.1 ∧ strle a.2.1 b.2.1 = true)

instance : DecidableRel tripleLE := fun a b => by
  unfold tripleLE; exact inferInstance

instance : IsTotal (Nat × String × List Evidence) tripleLE := by
  constructor
  intro a b
  rcases Nat.lt_trichotomy a.1 b.1 with h | h | h
  · exact Or.inl (Or.inl h)
  · rcases strle_total a.2.1 b.2.1 with h2 | h2
    · exact Or.inl (Or.inr ⟨h, h2⟩)
    · exact Or.inr (Or.inr ⟨h.symm, h2⟩)
  · exact Or.inr (Or.inl h)

instance : IsTrans (Nat × String × List Evidence) tripleLE := by
  constructor
  intro a b c hab hbc
  rcases hab with h1 | ⟨h1, h1'⟩ <;> rcases hbc with h2 | ⟨h2, h2'⟩
  · exact Or.inl (h1.trans h2)
  · exact Or.inl (h2 ▸ h1)
  · exact Or.inl (h1 ▸ h2)
  · exact Or.inr ⟨h1.trans h2, strle_trans h1' h2'⟩

/-- `[(len(v), k, v) for k, v in subjects.items()]`. -/
def subjTriples (sm : SubjMap) : List (Nat × String × List Evidence) :=
  sm.map (fun p => (p.2.length, p.1, p.2))

/-- `reversed(sorted([(len(v), k, v) for k, v in subjects.items()]))`. -/
def sortedSubjects (sm : SubjMap) : List (Nat × String × List Evidence) :=
  (List.insertionSort tripleLE (subjTriples sm)).reverse

/-- The `data` dict built by
`for (i, subj, val) in list(subjects_sorted)[:8]: data.setdefault(subj, []).extend(val)`. -/
def filter_data (sm : SubjMap) : SubjMap :=
  ((sortedSubjects sm).take 8).foldl (fun data t => updSubj data t.2.1 t.2.2) []

/-- The inner loop of `filter_relobjs` for one relation type: keep a reified
key iff `is_big`, and store `{'size': size_of(values), 'data': top-8}`.
Reified keys are dict keys, hence distinct, so the source's `setdefault` on
`rel_obj` always inserts a fresh entry, as `filterMap` does here. -/
def filterKeyMap (reltype : String) (km : KeyMap) : List (String × FEntry) :=
  km.filterMap (fun p =>
    if is_big (p.2.map Prod.snd) reltype then
      some (p.1, ⟨size_of (p.2.map Prod.snd), filter_data p.2⟩)
    else none)

/-- `RelationImporter.filter_relobjs`: the source initializes
`filtered_rels = {reltype: {} for reltype in RELTYPES}` and iterates the
reified index, whose top-level keys are exactly those of `RELTYPES`, so the
result maps each type of the reified index through `filterKeyMap`. -/
def filter_relobjs (ri : ReifIndex) : FiltIndex :=
  ri.map (fun p => (p.1, filterKeyMap p.1 p.2))

/-- `self.inverted_rels.setdefault(e['sha'] + '.json', []).append((relobj, subj))`. -/
def updInv : InvIndex → String → String × String → InvIndex
  | [], fname, pr => [(fname, [pr])]
  | (k, v) :: rest, fname, pr =>
    if k = fname then (k, v ++ [pr]) :: rest else (k, v) :: updInv rest fname pr

/-- `RelationImporter.invert_filtered_relobjs`: the source's outer loop runs
over the reified index's types, which coincide with the filtered index's
types, so it is a loop over the filtered index. -/
def invert_filtered_relobjs (fi : FiltIndex) : InvIndex :=
  fi.foldl (fun inv tkm =>
    tkm.2.foldl (fun inv ke =>
      ke.2.data.foldl (fun inv sl =>
        sl.2.foldl (fun inv e => updInv inv (e.sha ++ ".json") (ke.1, sl.1)) inv)
        inv) inv) []

/-- The core of `RelationImporter.convert`: collect (with the default record
cap), reify, filter, invert. -/
def pipeline (m : String → Option String) (records : List RawRecord) :
    Except String (FiltIndex × InvIndex) :=
  match collect_relations m records collect_default_n with
  | Except.error e => Except.error e
  | Except.ok rels =>
    let ri := reify_relations rels
    let fi := filter_relobjs ri
    Except.ok (fi, invert_filtered_relobjs fi)

/-- Lookup of a reified key's subject map. -/
def getReified (ri : ReifIndex) (t key : String) : Option SubjMap :=
  (ri.lookup t).bind (fun km => km.lookup key)

/-- Lookup of a surviving key's filtered entry. -/
def getFiltEntry (fi : FiltIndex) (t key : String) : Option FEntry :=
  (fi.lookup t).bind (fun km => km.lookup key)

/-! ### Association-list lookup lemmas -/

theorem lookup_map_value {β γ : Type} (g : String → β → γ) :
    ∀ (l : List (String × β)) (t : String),
      (l.map (fun p => (p.1, g p.1 p.2))).lookup t = (l.lookup t).map (g t)
  | [], _ => rfl
  | (k, _) :: rest, t => by
    by_cases h : t = k
    · subst h
      simp [List.lookup_cons]
    · have hb : (t == k) = false := by simpa using h
      simp [List.lookup_cons, hb, lookup_map_value g rest t]

theorem lookup_eq_none_of_not_mem_keys {β : Type} :
    ∀ (l : List (String × β)) (t : String), t ∉ l.map Prod.fst → l.lookup t = none
  | [], _, _ => rfl
  | (k, _) :: rest, t, h => by
    simp only [List.map_cons, List.mem_cons] at h
    push_neg at h
    have hb : (t == k) = false := by simpa using h.1
    simp [List.lookup_cons, hb, lookup_eq_none_of_not_mem_keys rest t h.2]

theorem mem_keys_of_filterKeyMap {t key : String} {km : KeyMap}
    (h : key ∈ (filterKeyMap t km).map Prod.fst) : key ∈ km.map Prod.fst := by
  unfold filterKeyMap at h
  rcases List.mem_map.mp h with ⟨x, hx, hxk⟩
  rcases List.mem_filterMap.mp hx with ⟨p, hp, hpx⟩
  by_cases hbig : is_big (p.2.map Prod.snd) t
  · rw [if_pos hbig] at hpx
    cases hpx
    exact List.mem_map.mpr ⟨p, hp, hxk⟩
  · rw [if_neg hbig] at hpx
    cases hpx

theorem filterKeyMap_lookup {t key : String} {sm : SubjMap} :
    ∀ {km : KeyMap}, (km.map Prod.fst).Nodup → km.lookup key = some sm →
      (filterKeyMap t km).lookup key =
        if is_big (sm.map Prod.snd) t then
          some ⟨size_of (sm.map Prod.snd), filter_data sm⟩
        else none
  | [], _, hsm => by simp [List.lookup] at hsm
  | (k, v) :: rest, hnd, hsm => by
    simp only [List.map_cons, List.nodup_cons] at hnd
    by_cases h : key = k
    · subst h
      rw [List.lookup_cons] at hsm
      simp only [beq_self_eq_true] at hsm
      cases hsm
      by_cases hbig : is_big (sm.map Prod.snd) t
      · simp only [filterKeyMap, List.filterMap_cons, if_pos hbig]
        simp [List.lookup_cons]
      · simp only [filterKeyMap, List.filterMap_cons, if_neg hbig]
        apply lookup_eq_none_of_not_mem_keys
        intro hmem
        exact hnd.1 (mem_keys_of_filterKeyMap hmem)
    · have hb : (key == k) = false := by simpa using h
      rw [List.lookup_cons] at hsm
      simp only [hb] at hsm
      have ih := filterKeyMap_lookup (t := t) hnd.2 hsm
      by_cases hbig : is_big (v.map Prod.snd) t
      · simp only [filterKeyMap, List.filterMap_cons, if_pos hbig]
        rw [List.lookup_cons]
        simpa [hb] using ih
      · simpa only [filterKeyMap, List.filterMap_cons, if_neg hbig] using ih

theorem getFiltEntry_eq {ri : ReifIndex} {t key : String} {km : KeyMap} {sm : SubjMap}
    (hkm : ri.lookup t = some km) (hnd : (km.map Prod.fst).Nodup)
    (hsm : km.lookup key = some sm) :
    getFiltEntry (filter_relobjs ri) t key =
      if is_big (sm.map Prod.snd) t then
        some ⟨size_of (sm.map Prod.snd), filter_data sm⟩
      else none := by
  unfold getFiltEntry filter_relobjs
  rw [lookup_map_value (fun t km => filterKeyMap t km) ri t, hkm]
  simp only [Option.map_some', Option.some_bind]
  exact filterKeyMap_lookup hnd hsm

/-- C2: a reified key of the reification index survives `filter_relobjs` iff
its aggregate evidence count (sum of the evidence-list lengths over its
subjects) reaches the type's threshold: 25 when the type name ends in
"Amount", 100 otherwise; the comparison is inclusive. -/
theorem survives_iff_threshold (ri : ReifIndex) (t key : String) (km : KeyMap)
    (sm : SubjMap) (hkm : ri.lookup t = some km)
    (hnd : (km.map Prod.fst).Nodup) (hsm : km.lookup key = some sm) :
    (getFiltEntry (filter_relobjs ri) t key).isSome = true ↔
      (if str_endswith t "Amount" then 25 else 100) ≤ size_of (sm.map Prod.snd) := by
  rw [getFiltEntry_eq hkm hnd hsm]
  by_cases h : (if str_endswith t "Amount" then 25 else 100) ≤ size_of (sm.map Prod.snd)
  · simp [is_big, h]
  · simp [is_big, h]

/-- A one-evidence item reused by concrete witness inputs. -/
def ev0 : Evidence := ⟨some "21188201", "d3f7afa8", some "IL-12 stimulates TNF"⟩

/-- Witness reification index: one IncreaseAmount key with exactly 25
evidence items, and one Activation key with exactly 99. -/
def wRi : ReifIndex :=
  [("Activation", [("TNF-activator", [("IL12", List.replicate 99 ev0)])]),
   ("Inhibition", []),
   ("IncreaseAmount", [("TNF-increaser", [("IL12", List.replicate 25 ev0)])]),
   ("DecreaseAmount", [])]

theorem survives_iff_threshold_witness :
    ((getFiltEntry (filter_relobjs wRi) "IncreaseAmount" "TNF-increaser").isSome = true ↔
      (if str_endswith "IncreaseAmount" "Amount" then 25 else 100) ≤
        size_of ([("IL12", List.replicate 25 ev0)].map Prod.snd)) ∧
    ((getFiltEntry (filter_relobjs wRi) "Activation" "TNF-activator").isSome = true ↔
      (if str_endswith "Activation" "Amount" then 25 else 100) ≤
        size_of ([("IL12", List.replicate 99 ev0)].map Prod.snd)) :=
  ⟨survives_iff_threshold wRi "IncreaseAmount" "TNF-increaser"
      [("TNF-increaser", [("IL12", List.replicate 25 ev0)])]
      [("IL12", List.replicate 25 ev0)] (by decide) (by decide) (by decide),
   survives_iff_threshold wRi "Activation" "TNF-activator"
      [("TNF-activator", [("IL12", List.replicate 99 ev0)])]
      [("IL12", List.replicate 99 ev0)] (by decide) (by decide) (by decide)⟩

/-! ### The sorted, truncated subject data of a surviving key -/

/-- Ascending order on (count, name) pairs, as Python's tuple comparison. -/
def pairLE (a b : Nat × String) : Prop :=
  a.1 < b.1 ∨ (a.1 = b.1 ∧ strle a.2 b.2 = true)

instance : DecidableRel pairLE := fun a b => by
  unfold pairLE; exact inferInstance

/-- `a` strictly precedes `b` in the descending (count desc, name desc)
order: `b` has a smaller count, or the same count and a strictly smaller
name. -/
def pairDesc (a b : Nat × String) : Prop :=
  b.1 < a.1 ∨ (b.1 = a.1 ∧ strle b.2 a.2 = true ∧ b.2 ≠ a.2)

/-- Projection of a sort triple to its (count, name) pair. -/
def trp (t : Nat × String × List Evidence) : Nat × String := (t.1, t.2.1)

theorem mem_subjTriples {sm : SubjMap} {x : Nat × String × List Evidence}
    (hx : x ∈ subjTriples sm) :
    x.1 = x.2.2.length ∧ (x.2.1, x.2.2) ∈ sm := by
  rcases List.mem_map.mp hx with ⟨p, hp, hpx⟩
  subst hpx
  exact ⟨rfl, hp⟩

theorem sortedSubjects_perm (sm : SubjMap) :
    (sortedSubjects sm).Perm (subjTriples sm) :=
  (List.reverse_perm _).trans (List.perm_insertionSort tripleLE (subjTriples sm))

theorem mem_sortedSubjects {sm : SubjMap} {x : Nat × String × List Evidence} :
    x ∈ sortedSubjects sm ↔ x ∈ subjTriples sm :=
  (sortedSubjects_perm sm).mem_iff

theorem sortedSubjects_names (sm : SubjMap) :
    ((subjTriples sm).map (fun t => t.2.1)) = sm.map Prod.fst := by
  unfold subjTriples
  rw [List.map_map]
  rfl

theorem sortedSubjects_names_nodup {sm : SubjMap}
    (h : (sm.map Prod.fst).Nodup) :
    ((sortedSubjects sm).map (fun t => t.2.1)).Nodup := by
  have hperm : ((sortedSubjects sm).map (fun t => t.2.1)).Perm
      ((subjTriples sm).map (fun t => t.2.1)) := (sortedSubjects_perm sm).map _
  rw [hperm.nodup_iff, sortedSubjects_names]
  exact h

theorem sortedSubjects_pairwise (sm : SubjMap) :
    (sortedSubjects sm).Pairwise (fun a b => tripleLE b a) := by
  unfold sortedSubjects
  rw [List.pairwise_reverse]
  exact List.sorted_insertionSort tripleLE (subjTriples sm)

/-- With distinct subject names, the reversed sort is strictly descending in
the (count, name) sense. -/
theorem sortedSubjects_pairwise_desc {sm : SubjMap}
    (h : (sm.map Prod.fst).Nodup) :
    (sortedSubjects sm).Pairwise (fun a b => pairDesc (trp a) (trp b)) := by
  have h1 := sortedSubjects_pairwise sm
  have h2 : (sortedSubjects sm).Pairwise (fun a b => a.2.1 ≠ b.2.1) :=
    List.pairwise_map.mp (sortedSubjects_names_nodup h)
  refine (h1.and h2).imp ?_
  rintro a b ⟨hle, hne⟩
  rcases hle with hlt | ⟨heq, hsle⟩
  · exact Or.inl hlt
  · exact Or.inr ⟨heq, hsle, fun hx => hne hx.symm⟩

theorem updSubj_of_not_mem {s : String} {v : List Evidence} :
    ∀ {d : SubjMap}, s ∉ d.map Prod.fst → updSubj d s v = d ++ [(s, v)]
  | [], _ => rfl
  | (k, w) :: rest, h => by
    simp only [List.map_cons, List.mem_cons] at h
    push_neg at h
    simp only [updSubj, if_neg (Ne.symm h.1), List.cons_append]
    rw [updSubj_of_not_mem h.2]

theorem foldl_updSubj :
    ∀ (ts : List (Nat × String × List Evidence)) (acc : SubjMap),
      ((ts.map (fun t => t.2.1)).Nodup) →
      (∀ x ∈ ts, x.2.1 ∉ acc.map Prod.fst) →
      ts.foldl (fun d t => updSubj d t.2.1 t.2.2) acc =
        acc ++ ts.map (fun t => (t.2.1, t.2.2))
  | [], acc, _, _ => by simp
  | t :: ts, acc, hnd, hdisj => by
    simp only [List.map_cons, List.nodup_cons] at hnd
    have hacc : t.2.1 ∉ acc.map Prod.fst := hdisj t (List.mem_cons_self t ts)
    simp only [List.foldl_cons]
    rw [updSubj_of_not_mem hacc]
    rw [foldl_updSubj ts (acc ++ [(t.2.1, t.2.2)]) hnd.2 ?_]
    · simp
    · intro x hx
      rw [List.map_append, List.mem_append]
      push_neg
      refine ⟨hdisj x (List.mem_cons_of_mem t hx), ?_⟩
      simp only [List.map_cons, List.map_nil, List.mem_singleton]
      intro hcon
      exact hnd.1 (hcon ▸ List.mem_map.mpr ⟨x, hx, rfl⟩)

/-- `filter_data` keeps the first 8 triples of the reversed sort, in order,
pairing each subject with its untouched evidence list. -/
theorem filter_data_eq {sm : SubjMap} (h : (sm.map Prod.fst).Nodup) :
    filter_data sm = ((sortedSubjects sm).take 8).map (fun t => (t.2.1, t.2.2)) := by
  unfold filter_data
  rw [foldl_updSubj _ _ ?_ (by simp)]
  · simp
  · have : ((sortedSubjects sm).take 8).map (fun t => t.2.1) =
        ((sortedSubjects sm).map (fun t => t.2.1)).take 8 := by
      rw [List.map_take]
    rw [this]
    exact (sortedSubjects_names_nodup h).sublist (List.take_sublist _ _)

theorem getFiltEntry_some_elim {ri : ReifIndex} {t key : String} {km : KeyMap}
    {sm : SubjMap} {e : FEntry} (hkm : ri.lookup t = some km)
    (hnd : (km.map Prod.fst).Nodup) (hsm : km.lookup key = some sm)
    (he : getFiltEntry (filter_relobjs ri) t key = some e) :
    is_big (sm.map Prod.snd) t = true ∧
      e = ⟨size_of (sm.map Prod.snd), filter_data sm⟩ := by
  rw [getFiltEntry_eq hkm hnd hsm] at he
  by_cases hbig : is_big (sm.map Prod.snd) t
  · rw [if_pos hbig] at he
    exact ⟨hbig, (Option.some_inj.mp he).symm⟩
  · rw [if_neg hbig] at he
    cases he

theorem lookup_of_mem_nodup {β : Type} :
    ∀ {l : List (String × β)}, (l.map Prod.fst).Nodup →
      ∀ {k : String} {v : β}, (k, v) ∈ l → l.lookup k = some v
  | [], _, _, _, hm => by cases hm
  | (k0, v0) :: rest, hnd, k, v, hm => by
    simp only [List.map_cons, List.nodup_cons] at hnd
    rcases List.mem_cons.mp hm with h | h
    · cases h
      simp [List.lookup_cons]
    · have hk : k ≠ k0 := by
        intro hx
        subst hx
        exact hnd.1 (List.mem_map.mpr ⟨(k, v), h, rfl⟩)
      have hb : (k == k0) = false := by simpa using hk
      simp only [List.lookup_cons, hb]
      exact lookup_of_mem_nodup hnd.2 h

theorem mem_take8_facts {sm : SubjMap} {x : Nat × String × List Evidence}
    (hx : x ∈ (sortedSubjects sm).take 8) :
    x.1 = x.2.2.length ∧ (x.2.1, x.2.2) ∈ sm :=
  mem_subjTriples (mem_sortedSubjects.mp ((List.take_sublist 8 _).subset hx))

theorem data_eq_take8 {ri : ReifIndex} {t key : String} {km : KeyMap}
    {sm : SubjMap} {e : FEntry} (hkm : ri.lookup t = some km)
    (hnd : (km.map Prod.fst).Nodup) (hsm : km.lookup key = some sm)
    (hnds : (sm.map Prod.fst).Nodup)
    (he : getFiltEntry (filter_relobjs ri) t key = some e) :
    e.data = ((sortedSubjects sm).take 8).map (fun x => (x.2.1, x.2.2)) := by
  obtain ⟨-, he'⟩ := getFiltEntry_some_elim hkm hnd hsm he
  subst he'
  exact filter_data_eq hnds

/-- C1: in a surviving key's data, subjects are ordered by evidence count
descending with ties broken by subject name descending, and the sequence of
(count, name) pairs equals the ascending sort of those pairs, reversed, cut
to 8. -/
theorem data_ordered_desc (ri : ReifIndex) (t key : String) (km : KeyMap)
    (sm : SubjMap) (e : FEntry) (hkm : ri.lookup t = some km)
    (hnd : (km.map Prod.fst).Nodup) (hsm : km.lookup key = some sm)
    (hnds : (sm.map Prod.fst).Nodup)
    (he : getFiltEntry (filter_relobjs ri) t key = some e) :
    (e.data.map (fun p => (p.2.length, p.1))).Pairwise pairDesc ∧
      e.data.map (fun p => (p.2.length, p.1)) =
        ((List.insertionSort pairLE
          (sm.map (fun p => (p.2.length, p.1)))).reverse).take 8 := by
  rw [data_eq_take8 hkm hnd hsm hnds he, List.map_map]
  have hproj : ((sortedSubjects sm).take 8).map
        ((fun p : String × List Evidence => (p.2.length, p.1)) ∘
          (fun x : Nat × String × List Evidence => (x.2.1, x.2.2))) =
      ((sortedSubjects sm).take 8).map trp := by
    apply List.map_congr_left
    intro x hx
    have hfact := (mem_take8_facts hx).1
    simp only [Function.comp_apply, trp]
    rw [← hfact]
  rw [hproj]
  constructor
  · rw [List.pairwise_map]
    exact ((sortedSubjects_pairwise_desc hnds).sublist (List.take_sublist 8 _))
  · rw [List.map_take]
    have hmap : (sortedSubjects sm).map trp =
        (List.insertionSort pairLE (sm.map (fun p => (p.2.length, p.1)))).reverse := by
      unfold sortedSubjects
      rw [List.map_reverse]
      rw [List.map_insertionSort tripleLE pairLE trp _ (fun a _ b _ => Iff.rfl)]
      unfold subjTriples
      rw [List.map_map]
      rfl
    rw [hmap]

/-- C6: a surviving key keeps `min 8 n` of its `n` subjects, namely the
top-ranked ones: every retained subject's evidence list is exactly the one
recorded in the reification index, and every retained subject strictly
outranks (count desc, name desc) every dropped subject. -/
theorem data_top8_unmodified (ri : ReifIndex) (t key : String) (km : KeyMap)
    (sm : SubjMap) (e : FEntry) (hkm : ri.lookup t = some km)
    (hnd : (km.map Prod.fst).Nodup) (hsm : km.lookup key = some sm)
    (hnds : (sm.map Prod.fst).Nodup)
    (he : getFiltEntry (filter_relobjs ri) t key = some e) :
    e.data.length = min 8 sm.length ∧
      (∀ p ∈ e.data, p ∈ sm ∧ sm.lookup p.1 = some p.2) ∧
      (∀ p ∈ e.data, ∀ q ∈ sm, q.1 ∉ e.data.map Prod.fst →
        pairDesc (p.2.length, p.1) (q.2.length, q.1)) := by
  have hdata := data_eq_take8 hkm hnd hsm hnds he
  have hlenS : (sortedSubjects sm).length = sm.length := by
    rw [(sortedSubjects_perm sm).length_eq]
    unfold subjTriples
    rw [List.length_map]
  refine ⟨?_, ?_, ?_⟩
  · rw [hdata, List.length_map, List.length_take, hlenS]
  · intro p hp
    rw [hdata] at hp
    rcases List.mem_map.mp hp with ⟨x, hx, hxp⟩
    have hfacts := mem_take8_facts hx
    have hpm : p ∈ sm := hxp ▸ hfacts.2
    exact ⟨hpm, by
      rcases p with ⟨ps, pv⟩
      exact lookup_of_mem_nodup hnds hpm⟩
  · intro p hp q hq hqnames
    rw [hdata] at hp hqnames
    rcases List.mem_map.mp hp with ⟨x, hx, hxp⟩
    have hxfacts := mem_take8_facts hx
    have hqtriple : (q.2.length, q.1, q.2) ∈ sortedSubjects sm := by
      rw [mem_sortedSubjects]
      unfold subjTriples
      exact List.mem_map.mpr ⟨q, hq, rfl⟩
    have hsplit := List.take_append_drop 8 (sortedSubjects sm)
    have hpw : ((sortedSubjects sm).take 8 ++ (sortedSubjects sm).drop 8).Pairwise
        (fun a b => pairDesc (trp a) (trp b)) := by
      rw [hsplit]
      exact sortedSubjects_pairwise_desc hnds
    have hcross := (List.pairwise_append.mp hpw).2.2
    have hqdrop : (q.2.length, q.1, q.2) ∈ (sortedSubjects sm).drop 8 := by
      rcases List.mem_append.mp (by rw [hsplit]; exact hqtriple :
          (q.2.length, q.1, q.2) ∈ (sortedSubjects sm).take 8 ++
            (sortedSubjects sm).drop 8) with h | h
      · exfalso
        apply hqnames
        rw [List.map_map]
        exact List.mem_map.mpr ⟨(q.2.length, q.1, q.2), h, rfl⟩
      · exact h
    have := hcross x hx (q.2.length, q.1, q.2) hqdrop
    have hxp' : (p.2.length, p.1) = trp x := by
      rw [← hxp]
      simp only [trp]
      rw [← hxfacts.1]
    rw [hxp']
    exact this

/-- C5: a surviving key's `size` field is the pre-truncation aggregate over
all its subjects, so with more than 8 subjects whose evidence lists are all
non-empty the `size` strictly exceeds the evidence total of the retained
data. -/
theorem size_is_pretruncation_aggregate (ri : ReifIndex) (t key : String)
    (km : KeyMap) (sm : SubjMap) (e : FEntry) (hkm : ri.lookup t = some km)
    (hnd : (km.map Prod.fst).Nodup) (hsm : km.lookup key = some sm)
    (hnds : (sm.map Prod.fst).Nodup)
    (he : getFiltEntry (filter_relobjs ri) t key = some e) :
    e.size = size_of (sm.map Prod.snd) ∧
      (8 < sm.length → (∀ p ∈ sm, p.2 ≠ []) →
        (e.data.map (fun p => p.2.length)).sum < e.size) := by
  obtain ⟨-, he'⟩ := getFiltEntry_some_elim hkm hnd hsm he
  have hsize : e.size = size_of (sm.map Prod.snd) := by rw [he']
  refine ⟨hsize, ?_⟩
  intro hlen hne
  have hdata := data_eq_take8 hkm hnd hsm hnds he
  have hlenS : (sortedSubjects sm).length = sm.length := by
    rw [(sortedSubjects_perm sm).length_eq]
    unfold subjTriples
    rw [List.length_map]
  -- the retained total is the sum of counts over the first 8 sorted triples
  have hdatasum : (e.data.map (fun p => p.2.length)).sum =
      (((sortedSubjects sm).take 8).map (fun x => x.1)).sum := by
    rw [hdata, List.map_map]
    congr 1
    apply List.map_congr_left
    intro x hx
    simp only [Function.comp_apply]
    exact (mem_take8_facts hx).1.symm
  -- the full aggregate is the sum of counts over all sorted triples
  have htotal : size_of (sm.map Prod.snd) = ((sortedSubjects sm).map (fun x => x.1)).sum := by
    have h1 : size_of (sm.map Prod.snd) = ((subjTriples sm).map (fun x => x.1)).sum := by
      unfold size_of subjTriples
      rw [List.map_map, List.map_map]
      rfl
    rw [h1]
    exact (((sortedSubjects_perm sm).map (fun x => x.1)).sum_eq).symm
  have hsplitsum : ((sortedSubjects sm).map (fun x => x.1)).sum =
      (((sortedSubjects sm).take 8).map (fun x => x.1)).sum +
        (((sortedSubjects sm).drop 8).map (fun x => x.1)).sum := by
    conv_lhs => rw [← List.take_append_drop 8 (sortedSubjects sm)]
    rw [List.map_append, List.sum_append]
  -- some subject is dropped, and its count is positive
  have hdroplen : 0 < ((sortedSubjects sm).drop 8).length := by
    rw [List.length_drop, hlenS]
    omega
  obtain ⟨x0, hx0⟩ := List.exists_mem_of_length_pos hdroplen
  have hx0S : x0 ∈ sortedSubjects sm := (List.drop_sublist 8 _).subset hx0
  have hx0facts := mem_subjTriples (mem_sortedSubjects.mp hx0S)
  have hx0pos : 0 < x0.1 := by
    rw [hx0facts.1]
    have := hne (x0.2.1, x0.2.2) hx0facts.2
    simpa [List.length_pos] using this
  have hdropsum : 0 < (((sortedSubjects sm).drop 8).map (fun x => x.1)).sum := by
    have hmem : x0.1 ∈ ((sortedSubjects sm).drop 8).map (fun x => x.1) :=
      List.mem_map.mpr ⟨x0, hx0, rfl⟩
    calc 0 < x0.1 := hx0pos
      _ ≤ _ := List.single_le_sum (fun y _ => Nat.zero_le y) _ hmem
  rw [hsize, htotal, hsplitsum, hdatasum]
  omega

/-- Witness subject map: 9 subjects with distinct evidence counts 1..9. -/
def wSm9 : SubjMap :=
  [("s1", List.replicate 1 ev0), ("s2", List.replicate 2 ev0),
   ("s3", List.replicate 3 ev0), ("s4", List.replicate 4 ev0),
   ("s5", List.replicate 5 ev0), ("s6", List.replicate 6 ev0),
   ("s7", List.replicate 7 ev0), ("s8", List.replicate 8 ev0),
   ("s9", List.replicate 9 ev0)]

def wRi9 : ReifIndex :=
  [("Activation", []), ("Inhibition", []),
   ("IncreaseAmount", [("TNF-increaser", wSm9)]), ("DecreaseAmount", [])]

/-- The filtered entry for `wRi9`: aggregate 45, the count-1 subject dropped. -/
def wE9 : FEntry :=
  ⟨45,
   [("s9", List.replicate 9 ev0), ("s8", List.replicate 8 ev0),
    ("s7", List.replicate 7 ev0), ("s6", List.replicate 6 ev0),
    ("s5", List.replicate 5 ev0), ("s4", List.replicate 4 ev0),
    ("s3", List.replicate 3 ev0), ("s2", List.replicate 2 ev0)]⟩

/-- Witness subject map with tied counts: three subjects, 9 evidence each. -/
def wSmTie : SubjMap :=
  [("a", List.replicate 9 ev0), ("b", List.replicate 9 ev0),
   ("c", List.replicate 9 ev0)]

def wRiTie : ReifIndex :=
  [("Activation", []), ("Inhibition", []),
   ("IncreaseAmount", [("IL6-increaser", wSmTie)]), ("DecreaseAmount", [])]

/-- The filtered entry for `wRiTie`: names in descending order c, b, a. -/
def wETie : FEntry :=
  ⟨27,
   [("c", List.replicate 9 ev0), ("b", List.replicate 9 ev0),
    ("a", List.replicate 9 ev0)]⟩

theorem data_ordered_desc_witness :
    (getFiltEntry (filter_relobjs wRiTie) "IncreaseAmount" "IL6-increaser" =
        some wETie) ∧
      ((wETie.data.map (fun p => (p.2.length, p.1))).Pairwise pairDesc ∧
        wETie.data.map (fun p => (p.2.length, p.1)) =
          ((List.insertionSort pairLE
            (wSmTie.map (fun p => (p.2.length, p.1)))).reverse).take 8) :=
  ⟨by decide,
   data_ordered_desc wRiTie "IncreaseAmount" "IL6-increaser"
     [("IL6-increaser", wSmTie)] wSmTie wETie (by decide) (by decide)
     (by decide) (by decide) (by decide)⟩

theorem data_top8_unmodified_witness :
    (getFiltEntry (filter_relobjs wRi9) "IncreaseAmount" "TNF-increaser" =
        some wE9) ∧
      (wE9.data.length = min 8 wSm9.length ∧
        (∀ p ∈ wE9.data, p ∈ wSm9 ∧ wSm9.lookup p.1 = some p.2) ∧
        (∀ p ∈ wE9.data, ∀ q ∈ wSm9, q.1 ∉ wE9.data.map Prod.fst →
          pairDesc (p.2.length, p.1) (q.2.length, q.1))) :=
  ⟨by decide,
   data_top8_unmodified wRi9 "IncreaseAmount" "TNF-increaser"
     [("TNF-increaser", wSm9)] wSm9 wE9 (by decide) (by decide) (by decide)
     (by decide) (by decide)⟩

theorem size_is_pretruncation_aggregate_witness :
    (getFiltEntry (filter_relobjs wRi9) "IncreaseAmount" "TNF-increaser" =
        some wE9) ∧
      (wE9.size = size_of (wSm9.map Prod.snd) ∧
        (8 < wSm9.length → (∀ p ∈ wSm9, p.2 ≠ []) →
          (wE9.data.map (fun p => p.2.length)).sum < wE9.size)) :=
  ⟨by decide,
   size_is_pretruncation_aggregate wRi9 "IncreaseAmount" "TNF-increaser"
     [("TNF-increaser", wSm9)] wSm9 wE9 (by decide) (by decide) (by decide)
     (by decide) (by decide)⟩

/-! ### The inverted (per-document) index -/

/-- The sequence of `setdefault(...).append(...)` calls performed by
`invert_filtered_relobjs`, flattened: one `(filename, (key, subject))`
insertion per reachable evidence item, in iteration order. -/
def allInsertions (fi : FiltIndex) : List (String × String × String) :=
  fi.flatMap (fun tkm =>
    tkm.2.flatMap (fun ke =>
      ke.2.data.flatMap (fun sl =>
        sl.2.map (fun e => (e.sha ++ ".json", ke.1, sl.1)))))

theorem foldl_flatMap {α β I : Type} (g : α → List β) (f : I → β → I) :
    ∀ (l : List α) (init : I),
      (l.flatMap g).foldl f init = l.foldl (fun i a => (g a).foldl f i) init
  | [], _ => rfl
  | a :: l, init => by
    rw [List.flatMap_cons, List.foldl_append, foldl_flatMap g f l, List.foldl_cons]

theorem invert_eq_foldl (fi : FiltIndex) :
    invert_filtered_relobjs fi =
      (allInsertions fi).foldl (fun inv x => updInv inv x.1 x.2) [] := by
  unfold invert_filtered_relobjs allInsertions
  simp only [foldl_flatMap, List.foldl_map]

theorem updInv_lookup_self :
    ∀ (inv : InvIndex) (f : String) (pr : String × String),
      (updInv inv f pr).lookup f = some ((inv.lookup f).getD [] ++ [pr])
  | [], f, pr => by simp [updInv, List.lookup_cons, List.lookup]
  | (k, v) :: rest, f, pr => by
    by_cases h : k = f
    · subst h
      simp [updInv, List.lookup_cons]
    · have hb : (f == k) = false := by simpa using Ne.symm h
      simp only [updInv, if_neg h, List.lookup_cons, hb]
      exact updInv_lookup_self rest f pr

theorem updInv_lookup_other :
    ∀ (inv : InvIndex) (f d : String) (pr : String × String), d ≠ f →
      (updInv inv f pr).lookup d = inv.lookup d
  | [], f, d, pr, h => by
    have hb : (d == f) = false := by simpa using h
    simp [updInv, List.lookup_cons, hb, List.lookup]
  | (k, v) :: rest, f, d, pr, h => by
    by_cases hk : k = f
    · subst hk
      have hb : (d == k) = false := by simpa using h
      simp [updInv, List.lookup_cons, hb]
    · simp only [updInv, if_neg hk, List.lookup_cons]
      cases hdk : d == k
      · exact updInv_lookup_other rest f d pr h
      · rfl

theorem foldl_updInv_lookup :
    ∀ (ins : List (String × String × String)) (inv : InvIndex) (d : String),
      (ins.foldl (fun i x => updInv i x.1 x.2) inv).lookup d =
        (match inv.lookup d with
         | some l => some (l ++ (ins.filter (fun x => x.1 == d)).map (fun x => x.2))
         | none =>
           if ((ins.filter (fun x => x.1 == d)).map (fun x => x.2)).isEmpty then none
           else some ((ins.filter (fun x => x.1 == d)).map (fun x => x.2)))
  | [], inv, d => by
    cases h : inv.lookup d <;> simp [h]
  | x :: ins, inv, d => by
    rw [List.foldl_cons, foldl_updInv_lookup ins (updInv inv x.1 x.2) d]
    cases hx : x.1 == d
    · rw [updInv_lookup_other inv x.1 d x.2 (by simpa using Ne.symm (by simpa using hx))]
      have hfil : List.filter (fun x => x.1 == d) (x :: ins) =
          List.filter (fun x => x.1 == d) ins := by
        simp [List.filter_cons, hx]
      rw [hfil]
    · have hxd : x.1 = d := by simpa using hx
      subst hxd
      rw [updInv_lookup_self inv x.1 x.2]
      simp only [List.filter_cons, hx, List.map_cons]
      cases h : inv.lookup x.1 <;> simp [h]

theorem invert_lookup (fi : FiltIndex) (d : String) :
    (invert_filtered_relobjs fi).lookup d =
      (if (((allInsertions fi).filter (fun x => x.1 == d)).map (fun x => x.2)).isEmpty
       then none
       else some (((allInsertions fi).filter (fun x => x.1 == d)).map (fun x => x.2))) := by
  rw [invert_eq_foldl, foldl_updInv_lookup]
  rfl

/-- An evidence item reachable in the filtered index at (key, subject). -/
def evReachable (fi : FiltIndex) (k s : String) (e : Evidence) : Prop :=
  ∃ p ∈ fi, ∃ q ∈ p.2, q.1 = k ∧ ∃ r ∈ q.2.data, r.1 = s ∧ e ∈ r.2

instance (fi : FiltIndex) (k s : String) (e : Evidence) :
    Decidable (evReachable fi k s e) := by
  unfold evReachable; exact inferInstance

theorem mem_allInsertions {fi : FiltIndex} {x : String × String × String} :
    x ∈ allInsertions fi ↔
      ∃ e : Evidence, evReachable fi x.2.1 x.2.2 e ∧ x.1 = e.sha ++ ".json" := by
  unfold allInsertions evReachable
  constructor
  · intro hx
    rcases List.mem_flatMap.mp hx with ⟨p, hp, hx⟩
    rcases List.mem_flatMap.mp hx with ⟨q, hq, hx⟩
    rcases List.mem_flatMap.mp hx with ⟨r, hr, hx⟩
    rcases List.mem_map.mp hx with ⟨e, he, hx⟩
    subst hx
    exact ⟨e, ⟨p, hp, q, hq, rfl, r, hr, rfl, he⟩, rfl⟩
  · rintro ⟨e, ⟨p, hp, q, hq, hqk, r, hr, hrs, he⟩, hx1⟩
    apply List.mem_flatMap.mpr
    refine ⟨p, hp, ?_⟩
    apply List.mem_flatMap.mpr
    refine ⟨q, hq, ?_⟩
    apply List.mem_flatMap.mpr
    refine ⟨r, hr, ?_⟩
    apply List.mem_map.mpr
    refine ⟨e, he, ?_⟩
    rcases x with ⟨x1, x2, x3⟩
    simp only at hqk hrs hx1
    rw [hqk, hrs, hx1]

/-- C3: every (key, subject) pair listed under a filename of the inverted
index is supported by at least one evidence item reachable in the filtered
index at that key and subject whose document yields that filename; and no
filename is present with an empty list. -/
theorem inverted_roundtrip (fi : FiltIndex) (d : String)
    (l : List (String × String))
    (h : (invert_filtered_relobjs fi).lookup d = some l) :
    l ≠ [] ∧ ∀ pr ∈ l, ∃ e : Evidence,
      evReachable fi pr.1 pr.2 e ∧ e.sha ++ ".json" = d := by
  rw [invert_lookup] at h
  by_cases hemp :
      (((allInsertions fi).filter (fun x => x.1 == d)).map (fun x => x.2)).isEmpty
  · rw [if_pos hemp] at h
    cases h
  · rw [if_neg hemp] at h
    have hl : l = ((allInsertions fi).filter (fun x => x.1 == d)).map (fun x => x.2) :=
      (Option.some_inj.mp h).symm
    constructor
    · rw [hl]
      intro hcon
      exact hemp (List.isEmpty_iff.mpr hcon)
    · intro pr hpr
      rw [hl] at hpr
      rcases List.mem_map.mp hpr with ⟨x, hx, hxpr⟩
      have hxmem : x ∈ allInsertions fi := List.mem_of_mem_filter hx
      have hxd : x.1 = d := by simpa using List.of_mem_filter hx
      rcases mem_allInsertions.mp hxmem with ⟨e, hreach, hsha⟩
      subst hxpr
      exact ⟨e, hreach, by rw [← hsha, hxd]⟩

/-- C9: every key of the inverted index is an evidence item's internal
document id with ".json" appended (never the bare id), and the per-file
lookup with that same filename form retrieves the (key, subject) pair of
every reachable evidence item. -/
theorem inverted_keys_json_suffix (fi : FiltIndex) :
    (∀ d l, (invert_filtered_relobjs fi).lookup d = some l →
      ∃ e : Evidence, (∃ k s, evReachable fi k s e) ∧ d = e.sha ++ ".json") ∧
    (∀ k s e, evReachable fi k s e →
      ∃ l, (invert_filtered_relobjs fi).lookup (e.sha ++ ".json") = some l ∧
        (k, s) ∈ l) := by
  constructor
  · intro d l h
    rw [invert_lookup] at h
    by_cases hemp :
        (((allInsertions fi).filter (fun x => x.1 == d)).map (fun x => x.2)).isEmpty
    · rw [if_pos hemp] at h
      cases h
    · have hne : (((allInsertions fi).filter (fun x => x.1 == d)).map
          (fun x => x.2)) ≠ [] :=
        fun hc => hemp (List.isEmpty_iff.mpr hc)
      have hmem : ∃ x, x ∈ (allInsertions fi).filter (fun x => x.1 == d) := by
        rcases List.exists_mem_of_length_pos (List.length_pos.mpr hne) with ⟨y, hy⟩
        rcases List.mem_map.mp hy with ⟨x, hx, -⟩
        exact ⟨x, hx⟩
      rcases hmem with ⟨x, hx⟩
      have hxmem : x ∈ allInsertions fi := List.mem_of_mem_filter hx
      have hxd : x.1 = d := by simpa using List.of_mem_filter hx
      rcases mem_allInsertions.mp hxmem with ⟨e, hreach, hsha⟩
      exact ⟨e, ⟨x.2.1, x.2.2, hreach⟩, by rw [← hxd, hsha]⟩
  · intro k s e hreach
    have hins : ((e.sha ++ ".json", k, s) : String × String × String) ∈
        allInsertions fi :=
      mem_allInsertions.mpr ⟨e, hreach, rfl⟩
    have hfil : ((e.sha ++ ".json", k, s) : String × String × String) ∈
        (allInsertions fi).filter (fun x => x.1 == e.sha ++ ".json") :=
      List.mem_filter.mpr ⟨hins, by simp⟩
    have hmem : ((k, s) : String × String) ∈
        ((allInsertions fi).filter (fun x => x.1 == e.sha ++ ".json")).map
          (fun x => x.2) :=
      List.mem_map.mpr ⟨_, hfil, rfl⟩
    have hne : ¬ (((allInsertions fi).filter
        (fun x => x.1 == e.sha ++ ".json")).map (fun x => x.2)).isEmpty := by
      intro hc
      rw [List.isEmpty_iff] at hc
      rw [hc] at hmem
      cases hmem
    refine ⟨_, ?_, hmem⟩
    rw [invert_lookup, if_neg hne]

/-- Two concrete evidence items from distinct documents. -/
def evA : Evidence := ⟨some "100", "aaa", some "t1"⟩

def evB : Evidence := ⟨some "200", "bbb", some "t2"⟩

/-- A small filtered index used by the inverter witnesses. -/
def wFi : FiltIndex :=
  [("Activation", [("TNF-activator", ⟨2, [("IL12", [evA, evB])]⟩)])]

theorem inverted_roundtrip_witness :
    ([("TNF-activator", "IL12")] : List (String × String)) ≠ [] ∧
      ∀ pr ∈ ([("TNF-activator", "IL12")] : List (String × String)),
        ∃ e : Evidence, evReachable wFi pr.1 pr.2 e ∧ e.sha ++ ".json" = "aaa.json" :=
  inverted_roundtrip wFi "aaa.json" [("TNF-activator", "IL12")] (by decide)

theorem inverted_keys_json_suffix_witness :
    (∃ e : Evidence, (∃ k s, evReachable wFi k s e) ∧
        "bbb.json" = e.sha ++ ".json") ∧
      (∃ l, (invert_filtered_relobjs wFi).lookup (evA.sha ++ ".json") = some l ∧
        ("TNF-activator", "IL12") ∈ l) :=
  ⟨(inverted_keys_json_suffix wFi).1 "bbb.json" [("TNF-activator", "IL12")]
      (by decide),
   (inverted_keys_json_suffix wFi).2 "TNF-activator" "IL12" evA (by decide)⟩

/-! ### The collector -/

theorem processRecord_some_inv {m : String → Option String} {r : RawRecord}
    {rel : Rel} (h : processRecord m r = Except.ok (some rel)) :
    ∃ t s o es, r.rtype = some t ∧ r.subj = some s ∧ r.obj = some o ∧
      r.evidence = some es ∧ t ∈ target_relations ∧
      es.filterMap (resolveEvidence m) ≠ [] ∧
      rel = ⟨t, s, o, es.filterMap (resolveEvidence m)⟩ := by
  rcases r with ⟨rt, rsub, rob, rev⟩
  cases rt with
  | none => cases h
  | some t =>
    simp only [processRecord] at h
    by_cases ht : t ∈ target_relations
    · rw [if_pos ht] at h
      cases rsub with
      | none => cases rob <;> cases h
      | some s =>
        cases rob with
        | none => cases h
        | some o =>
          cases rev with
          | none => cases h
          | some es =>
            dsimp only at h
            by_cases hemp : (es.filterMap (resolveEvidence m)).isEmpty
            · rw [if_pos hemp] at h
              cases h
            · rw [if_neg hemp] at h
              refine ⟨t, s, o, es, rfl, rfl, rfl, rfl, ht, ?_, ?_⟩
              · intro hc
                exact hemp (List.isEmpty_iff.mpr hc)
              · exact (Option.some_inj.mp (Except.ok.inj h)).symm
    · rw [if_neg ht] at h
      cases h

theorem collectGo_evidence_ne {m : String → Option String} :
    ∀ {rs : List RawRecord} {res : List Rel}, collectGo m rs = Except.ok res →
      ∀ rel ∈ res, rel.evidence ≠ []
  | [], res, h => by
    cases h
    intro rel hrel
    cases hrel
  | r :: rs, res, h => by
    unfold collectGo at h
    cases hpr : processRecord m r with
    | error msg => rw [hpr] at h; cases h
    | ok o =>
      rw [hpr] at h
      cases hgo : collectGo m rs with
      | error msg => rw [hgo] at h; cases h
      | ok rest =>
        rw [hgo] at h
        cases o with
        | none =>
          cases h
          exact collectGo_evidence_ne hgo
        | some rel0 =>
          cases h
          intro rel hrel
          rcases List.mem_cons.mp hrel with hr0 | hr0
          · subst hr0
            rcases processRecord_some_inv hpr with ⟨t, s, o, es, -, -, -, -, -, hne, heq⟩
            rw [heq]
            exact hne
          · exact collectGo_evidence_ne hgo rel hr0

/-- All evidence lists at the bottom of a reification index are non-empty. -/
def allNonempty (ri : ReifIndex) : Prop :=
  ∀ p ∈ ri, ∀ q ∈ p.2, ∀ sl ∈ q.2, sl.2 ≠ []

theorem updSubj_nonempty {s : String} {ds : List Evidence} (hds : ds ≠ []) :
    ∀ {sm : SubjMap}, (∀ x ∈ sm, x.2 ≠ []) →
      ∀ x ∈ updSubj sm s ds, x.2 ≠ []
  | [], _, x, hx => by
    rcases List.mem_singleton.mp hx with rfl
    exact hds
  | (k, v) :: rest, hsm, x, hx => by
    by_cases hk : k = s
    · rw [updSubj, if_pos hk] at hx
      rcases List.mem_cons.mp hx with rfl | hx
      · intro hc
        rcases List.append_eq_nil.mp hc with ⟨-, h2⟩
        exact hds h2
      · exact hsm x (List.mem_cons_of_mem _ hx)
    · rw [updSubj, if_neg hk] at hx
      rcases List.mem_cons.mp hx with rfl | hx
      · exact hsm (k, v) (List.mem_cons_self _ _)
      · exact updSubj_nonempty hds (fun y hy => hsm y (List.mem_cons_of_mem _ hy)) x hx

theorem updKey_nonempty {key s : String} {ds : List Evidence} (hds : ds ≠ []) :
    ∀ {km : KeyMap}, (∀ q ∈ km, ∀ sl ∈ q.2, sl.2 ≠ []) →
      ∀ q ∈ updKey km key s ds, ∀ sl ∈ q.2, sl.2 ≠ []
  | [], _, q, hq => by
    rcases List.mem_singleton.mp hq with rfl
    exact updSubj_nonempty hds (fun x hx => by cases hx)
  | (k, sm) :: rest, hkm, q, hq => by
    by_cases hk : k = key
    · rw [updKey, if_pos hk] at hq
      rcases List.mem_cons.mp hq with rfl | hq
      · exact updSubj_nonempty hds (hkm (k, sm) (List.mem_cons_self _ _))
      · exact hkm q (List.mem_cons_of_mem _ hq)
    · rw [updKey, if_neg hk] at hq
      rcases List.mem_cons.mp hq with rfl | hq
      · exact hkm (k, sm) (List.mem_cons_self _ _)
      · exact updKey_nonempty hds (fun y hy => hkm y (List.mem_cons_of_mem _ hy)) q hq

theorem reifyStep_nonempty {ri : ReifIndex} {rel : Rel}
    (hri : allNonempty ri) (hrel : rel.evidence ≠ []) :
    allNonempty (reifyStep ri rel) := by
  intro p hp
  unfold reifyStep at hp
  rcases List.mem_map.mp hp with ⟨p0, hp0, hpe⟩
  by_cases hmatch : p0.1 = rel.rtype
  · rw [if_pos hmatch] at hpe
    subst hpe
    intro q hq
    exact updKey_nonempty hrel (fun y hy => hri p0 hp0 y hy) q hq
  · rw [if_neg hmatch] at hpe
    subst hpe
    exact hri p0 hp0

theorem reify_foldl_nonempty :
    ∀ (rels : List Rel) (ri : ReifIndex), allNonempty ri →
      (∀ rel ∈ rels, rel.evidence ≠ []) →
      allNonempty (rels.foldl reifyStep ri)
  | [], ri, hri, _ => hri
  | rel :: rels, ri, hri, hrels => by
    rw [List.foldl_cons]
    exact reify_foldl_nonempty rels _
      (reifyStep_nonempty hri (hrels rel (List.mem_cons_self _ _)))
      (fun y hy => hrels y (List.mem_cons_of_mem _ hy))

theorem emptyReified_nonempty : allNonempty emptyReified := by
  intro p hp
  unfold emptyReified at hp
  rcases List.mem_map.mp hp with ⟨p0, -, hpe⟩
  subst hpe
  intro q hq
  cases hq

/-- C7: unresolvable evidence entries are dropped one by one (a recognized
record yields the relation carrying exactly its resolvable entries, or
nothing when none resolve), every collected relation has non-empty evidence,
and no subject of the reification index built from collected relations holds
an empty evidence list. -/
theorem no_empty_evidence (m : String → Option String) (records : List RawRecord)
    (n : Nat) (res : List Rel)
    (h : collect_relations m records n = Except.ok res) :
    (∀ t s o es, t ∈ target_relations →
      collectGo m [⟨some t, some s, some o, some es⟩] =
        Except.ok (if (es.filterMap (resolveEvidence m)).isEmpty then []
                   else [⟨t, s, o, es.filterMap (resolveEvidence m)⟩])) ∧
    (∀ rel ∈ res, rel.evidence ≠ []) ∧
    allNonempty (reify_relations res) := by
  refine ⟨?_, collectGo_evidence_ne h, ?_⟩
  · intro t s o es ht
    simp only [collectGo, processRecord, if_pos ht]
    by_cases hemp : (es.filterMap (resolveEvidence m)).isEmpty
    · rw [if_pos hemp]
      rw [if_pos hemp]
    · rw [if_neg hemp]
      rw [if_neg hemp]
  · exact reify_foldl_nonempty res emptyReified emptyReified_nonempty
      (collectGo_evidence_ne h)

theorem no_empty_evidence_witness :
    (collect_relations (fun p => if p = "bad" then none else some ("sha-" ++ p))
        [⟨some "Activation", some "IL12", some "TNF",
          some [⟨some "bad", some "t1"⟩, ⟨some "100", some "t2"⟩, ⟨none, some "t3"⟩]⟩]
        100000 =
      Except.ok [⟨"Activation", "IL12", "TNF",
        [⟨some "100", "sha-100", some "t2"⟩]⟩]) ∧
    (∀ rel ∈ ([⟨"Activation", "IL12", "TNF",
        [⟨some "100", "sha-100", some "t2"⟩]⟩] : List Rel), rel.evidence ≠ []) ∧
    allNonempty (reify_relations [⟨"Activation", "IL12", "TNF",
        [⟨some "100", "sha-100", some "t2"⟩]⟩]) :=
  ⟨rfl,
   (no_empty_evidence (fun p => if p = "bad" then none else some ("sha-" ++ p))
      [⟨some "Activation", some "IL12", some "TNF",
        some [⟨some "bad", some "t1"⟩, ⟨some "100", some "t2"⟩, ⟨none, some "t3"⟩]⟩]
      100000
      [⟨"Activation", "IL12", "TNF", [⟨some "100", "sha-100", some "t2"⟩]⟩]
      rfl).2⟩

/-- C4 counterexample: a perfectly iterable input whose single record lacks a
`type` field makes the collector raise (KeyError in the source), so the
collector does not return normally regardless of record shape. -/
theorem collect_raises_on_missing_type :
    collect_relations (fun _ => none) [⟨none, none, none, none⟩] 100000 =
      Except.error "KeyError: type" := rfl

/-- A record that can never hit an uncaught KeyError in the collector loop:
it has a `type` field, and it has an `evidence` field whenever its type is
recognized and both argument names are present. -/
def wellformedRecord (r : RawRecord) : Prop :=
  r.rtype.isSome ∧
    ((∃ t, r.rtype = some t ∧ t ∈ target_relations) → r.subj.isSome →
      r.obj.isSome → r.evidence.isSome)

instance (r : RawRecord) : Decidable (wellformedRecord r) := by
  unfold wellformedRecord; exact inferInstance

theorem processRecord_ok_of_wellformed (m : String → Option String)
    (r : RawRecord) (hr : wellformedRecord r) :
    ∃ o, processRecord m r = Except.ok o := by
  rcases r with ⟨rt, rsub, rob, rev⟩
  cases rt with
  | none => simp [wellformedRecord] at hr
  | some t =>
    by_cases ht : t ∈ target_relations
    · cases rsub with
      | none =>
        refine ⟨none, ?_⟩
        cases rob <;> simp [processRecord, if_pos ht]
      | some s =>
        cases rob with
        | none => exact ⟨none, by simp only [processRecord, if_pos ht]⟩
        | some o =>
          have hev : rev.isSome := hr.2 ⟨t, rfl, ht⟩ rfl rfl
          cases rev with
          | none => simp at hev
          | some es =>
            simp only [processRecord, if_pos ht]
            by_cases hemp : (es.filterMap (resolveEvidence m)).isEmpty
            · exact ⟨none, by rw [if_pos hemp]⟩
            · exact ⟨some ⟨t, s, o, es.filterMap (resolveEvidence m)⟩,
                by rw [if_neg hemp]⟩
    · exact ⟨none, by simp only [processRecord, if_neg ht]⟩

theorem collectGo_ok_of_wellformed (m : String → Option String) :
    ∀ rs : List RawRecord, (∀ r ∈ rs, wellformedRecord r) →
      ∃ res, collectGo m rs = Except.ok res
  | [], _ => ⟨[], rfl⟩
  | r :: rs, h => by
    rcases processRecord_ok_of_wellformed m r (h r (List.mem_cons_self _ _))
      with ⟨o, ho⟩
    rcases collectGo_ok_of_wellformed m rs
      (fun y hy => h y (List.mem_cons_of_mem _ hy)) with ⟨rest, hrest⟩
    cases o with
    | some rel =>
      refine ⟨rel :: rest, ?_⟩
      unfold collectGo
      rw [ho, hrest]
    | none =>
      refine ⟨rest, ?_⟩
      unfold collectGo
      rw [ho, hrest]

/-- C4 (amended): the collector returns normally provided every record has a
`type` field and, when the type is recognized and both argument names are
present, an `evidence` field; skipped records (unrecognized type, missing
subject/object name) and dropped evidence entries never raise. -/
theorem collect_ok_of_wellformed (m : String → Option String)
    (records : List RawRecord) (n : Nat)
    (h : ∀ r ∈ records, wellformedRecord r) :
    ∃ res, collect_relations m records n = Except.ok res := by
  unfold collect_relations
  exact collectGo_ok_of_wellformed m (records.take n)
    (fun r hr => h r ((List.take_sublist n records).subset hr))

theorem collect_ok_of_wellformed_witness :
    (∀ r ∈ ([⟨some "Frob", none, none, none⟩,
        ⟨some "Activation", none, some "TNF", none⟩,
        ⟨some "Activation", some "IL12", some "TNF",
          some [⟨some "bad", some "t"⟩]⟩] : List RawRecord), wellformedRecord r) ∧
      ∃ res, collect_relations (fun _ => none)
          [⟨some "Frob", none, none, none⟩,
           ⟨some "Activation", none, some "TNF", none⟩,
           ⟨some "Activation", some "IL12", some "TNF",
             some [⟨some "bad", some "t"⟩]⟩] 100000 =
        Except.ok res :=
  ⟨by decide,
   collect_ok_of_wellformed (fun _ => none)
     [⟨some "Frob", none, none, none⟩,
      ⟨some "Activation", none, some "TNF", none⟩,
      ⟨some "Activation", some "IL12", some "TNF",
        some [⟨some "bad", some "t"⟩]⟩] 100000 (by decide)⟩

/-- C10: `collect_relations` defaults its cap to 100000 and examines only the
first 100000 records, so records past that bound contribute nothing to the
collector's output or to the whole pipeline (which passes no explicit n). -/
theorem collect_caps_at_default (m : String → Option String)
    (records extra : List RawRecord) (h : 100000 ≤ records.length) :
    collect_default_n = 100000 ∧
      collect_relations m (records ++ extra) collect_default_n =
        collect_relations m records collect_default_n ∧
      pipeline m (records ++ extra) = pipeline m records := by
  have hcoll : collect_relations m (records ++ extra) collect_default_n =
      collect_relations m records collect_default_n := by
    unfold collect_relations collect_default_n
    rw [List.take_append_of_le_length h]
  refine ⟨rfl, hcoll, ?_⟩
  unfold pipeline
  rw [hcoll]

theorem collect_caps_at_default_witness :
    100000 ≤ (List.replicate 100000
        (⟨some "Frob", none, none, none⟩ : RawRecord)).length ∧
      pipeline (fun _ => none)
          (List.replicate 100000 (⟨some "Frob", none, none, none⟩ : RawRecord) ++
            [⟨some "Activation", some "s", some "o", some []⟩]) =
        pipeline (fun _ => none)
          (List.replicate 100000 (⟨some "Frob", none, none, none⟩ : RawRecord)) :=
  ⟨(List.length_replicate 100000 _).symm.le,
   (collect_caps_at_default (fun _ => none)
      (List.replicate 100000 ⟨some "Frob", none, none, none⟩)
      [⟨some "Activation", some "s", some "o", some []⟩]
      (List.length_replicate 100000 _).symm.le).2.2⟩

/-- C8: the composed pipeline (collect, reify, filter, invert) is a pure
function of the resolver and the record sequence: two runs on equal inputs
produce equal filtered and inverted indexes. -/
theorem pipeline_deterministic (m : String → Option String)
    (rs1 rs2 : List RawRecord) (h : rs1 = rs2) :
    pipeline m rs1 = pipeline m rs2 := by
  rw [h]

theorem pipeline_deterministic_witness :
    pipeline (fun _ => some "sha")
        [⟨some "Activation", some "IL12", some "TNF",
          some [⟨some "100", some "t"⟩]⟩] =
      pipeline (fun _ => some "sha")
        [⟨some "Activation", some "IL12", some "TNF",
          some [⟨some "100", some "t"⟩]⟩] :=
  pipeline_deterministic (fun _ => some "sha")
    [⟨some "Activation", some "IL12", some "TNF", some [⟨some "100", some "t"⟩]⟩]
    [⟨some "Activation", some "IL12", some "TNF", some [⟨some "100", some "t"⟩]⟩]
    rfl

end Covid
